import Mathlib

/-!
# Verification of `examples/performance_benchmarks.py`

Shallow embedding of the synthetic-Hamiltonian generator
`artificial_molecular_operator` and of the random term construction in
`benchmark_fermion_math_and_normal_order` (Scenario B), together with proofs
of the specified properties.

The ambient numpy random source is modelled as an explicit stream:
`g : ℕ → ℝ` yields the successive `numpy.random.randn()` values, and a
position counter is threaded through the computation (each draw consumes one
position).  For Scenario B the source is a stream `h : ℕ → ℕ` of raw draws,
and `numpy.random.randint(n)` at position `k` is modelled as `h k % n`,
which ranges over `[0, n)` exactly as the library call does.
-/

/-- Pointwise update of a two-index coefficient table, modelling a single
numpy assignment `a[p, q] = v`. -/
def upd2 (f : ℕ → ℕ → ℝ) (p q : ℕ) (v : ℝ) : ℕ → ℕ → ℝ :=
  fun a b => if a = p ∧ b = q then v else f a b

/-- Pointwise update of a four-index coefficient table, modelling a single
numpy assignment `t[p, q, r, s] = v`. -/
def upd4 (f : ℕ → ℕ → ℕ → ℕ → ℝ) (p q r s : ℕ) (v : ℝ) : ℕ → ℕ → ℕ → ℕ → ℝ :=
  fun a b c d => if a = p ∧ b = q ∧ c = r ∧ d = s then v else f a b c d

/-- The `InteractionOperator` value produced by the generator: a scalar
constant, a one-body coefficient matrix and a two-body coefficient tensor
(source: `InteractionOperator(constant, one_body_coefficients,
two_body_coefficients)`). -/
structure InteractionOperator where
  constant : ℝ
  one_body_coefficients : ℕ → ℕ → ℝ
  two_body_coefficients : ℕ → ℕ → ℕ → ℕ → ℝ

/-- `len(set([p, q, r, s]))` from the source: the number of distinct values
among the four indices. -/
def uniqueIndices (p q r s : ℕ) : ℕ :=
  ({p, q, r, s} : Finset ℕ).card

/-- Whether the body of the innermost loop of `artificial_molecular_operator`
reaches the two assignment lines for the quadruple `(p, q, r, s)` — i.e.
none of the `continue` statements fires.  Mirrors the source exactly:
zero terms (`p == q or r == s`) are skipped; for quadruples distinct from
their own mirror `(s, r, q, p)`, a quadruple with four distinct indices is
skipped when `min(r, s) <= min(p, q)` and a quadruple with two distinct
indices is skipped when `q < p`; everything else falls through to the
assignment. -/
def tbAssign (p q r s : ℕ) : Bool :=
  if p = q ∨ r = s then false
  else if (p, q, r, s) ≠ (s, r, q, p) then
    if uniqueIndices p q r s = 4 then
      if min r s ≤ min p q then false else true
    else if uniqueIndices p q r s = 2 then
      if q < p then false else true
    else true
  else true

/-- Generator state: the next unconsumed position of the random stream plus
the two coefficient tables being filled in. -/
structure GenState where
  pos : ℕ
  one_body : ℕ → ℕ → ℝ
  two_body : ℕ → ℕ → ℕ → ℕ → ℝ

/-- The one-body block of the `(p, q)` loop iteration: when
`(p <= p) and (p % 2 == q % 2)` a fresh value is drawn and written to both
`one_body[p, q]` and `one_body[q, p]`. -/
def obStep (g : ℕ → ℝ) (p q : ℕ) (st : GenState) : GenState :=
  if p ≤ p ∧ p % 2 = q % 2 then
    { st with
      pos := st.pos + 1
      one_body := upd2 (upd2 st.one_body p q (g st.pos)) q p (g st.pos) }
  else st

/-- The innermost loop body: when the quadruple is assigned, a fresh value is
drawn and written to both `two_body[p, q, r, s]` and `two_body[s, r, q, p]`. -/
def tbStep (g : ℕ → ℝ) (p q r s : ℕ) (st : GenState) : GenState :=
  if tbAssign p q r s then
    { st with
      pos := st.pos + 1
      two_body := upd4 (upd4 st.two_body p q r s (g st.pos)) s r q p (g st.pos) }
  else st

/-- The two inner loops `for r in range(n): for s in range(n):`. -/
def innerLoops (g : ℕ → ℝ) (n p q : ℕ) (st : GenState) : GenState :=
  (List.range n).foldl
    (fun st1 r => (List.range n).foldl (fun st2 s => tbStep g p q r s st2) st1) st

/-- One iteration of the `for q in range(n):` loop: the one-body block
followed by the two inner loops. -/
def qStep (g : ℕ → ℝ) (n p q : ℕ) (st : GenState) : GenState :=
  innerLoops g n p q (obStep g p q st)

/-- The full nested loop `for p in range(n): for q in range(n): ...` of the
generator, started after the constant has been drawn (stream position 1) on
all-zero coefficient tables. -/
def genLoop (g : ℕ → ℝ) (n : ℕ) : GenState :=
  (List.range n).foldl
    (fun st1 p => (List.range n).foldl (fun st2 q => qStep g n p q st2) st1)
    ⟨1, fun _ _ => 0, fun _ _ _ _ => 0⟩

/-- `artificial_molecular_operator(n_qubits)` from the source, as a function
of the explicit random stream `g`.  The constant is drawn first; the tables
start at zero; the nested loops fill them in.  Returns the operator together
with the final stream position (the total number of draws consumed). -/
def artificial_molecular_operator (g : ℕ → ℝ) (n_qubits : ℕ) :
    InteractionOperator × ℕ :=
  let st := genLoop g n_qubits
  (⟨g 0, st.one_body, st.two_body⟩, st.pos)

/-! ## Fold-invariant machinery -/

/-- An invariant preserved by every step of a left fold holds of the result. -/
theorem foldl_preserves {α β : Type} {P : α → Prop} {f : α → β → α}
    (hstep : ∀ a b, P a → P (f a b)) :
    ∀ (l : List β) (init : α), P init → P (l.foldl f init)
  | [], _, h0 => h0
  | _ :: xs, _, h0 => foldl_preserves hstep xs _ (hstep _ _ h0)

/-- Any state predicate preserved by the one-body block and by the inner-loop
body holds of the final state of the generator's nested loops. -/
theorem genLoop_inv (g : ℕ → ℝ) (n : ℕ) (P : GenState → Prop)
    (h0 : P ⟨1, fun _ _ => 0, fun _ _ _ _ => 0⟩)
    (hob : ∀ p q st, P st → P (obStep g p q st))
    (htb : ∀ p q r s st, P st → P (tbStep g p q r s st)) :
    P (genLoop g n) := by
  unfold genLoop
  refine foldl_preserves (fun st1 p h1 => ?_) _ _ h0
  refine foldl_preserves (fun st2 q h2 => ?_) _ _ h1
  unfold qStep innerLoops
  refine foldl_preserves (fun st3 r h3 => ?_) _ _ (hob p q st2 h2)
  exact foldl_preserves (fun st4 s h4 => htb p q r s st4 h4) _ _ h3

/-! ## Structural invariants of the generated tensors -/

/-- The one-body block never touches the two-body table. -/
lemma obStep_two_body (g : ℕ → ℝ) (p q : ℕ) (st : GenState) :
    (obStep g p q st).two_body = st.two_body := by
  unfold obStep; split <;> rfl

/-- The inner-loop body never touches the one-body table. -/
lemma tbStep_one_body (g : ℕ → ℝ) (p q r s : ℕ) (st : GenState) :
    (tbStep g p q r s st).one_body = st.one_body := by
  unfold tbStep; split <;> rfl

/-- The paired writes of the inner loop preserve mirror symmetry of the
two-body table. -/
lemma tbStep_mirror (g : ℕ → ℝ) (p q r s : ℕ) (st : GenState)
    (h : ∀ a b c d, st.two_body a b c d = st.two_body d c b a) :
    ∀ a b c d, (tbStep g p q r s st).two_body a b c d =
      (tbStep g p q r s st).two_body d c b a := by
  intro a b c d
  unfold tbStep
  split
  · simp only [upd4]
    split_ifs <;> first | rfl | tauto
  · exact h a b c d

/-- Mirror symmetry of the two-body table holds at the end of the loops. -/
lemma genLoop_two_body_mirror (g : ℕ → ℝ) (n : ℕ) :
    ∀ a b c d, (genLoop g n).two_body a b c d = (genLoop g n).two_body d c b a := by
  refine genLoop_inv g n
    (fun st => ∀ a b c d, st.two_body a b c d = st.two_body d c b a)
    (fun _ _ _ _ => rfl) (fun p q st h => ?_) (fun p q r s st h => ?_)
  · intro a b c d; rw [obStep_two_body]; exact h a b c d
  · exact tbStep_mirror g p q r s st h

/-- An accepted quadruple has `p ≠ q` and `r ≠ s`: the first `continue`
guards all assignments. -/
lemma tbAssign_ne (p q r s : ℕ) (h : tbAssign p q r s = true) :
    p ≠ q ∧ r ≠ s := by
  by_contra hc
  have : p = q ∨ r = s := by tauto
  simp only [tbAssign, if_pos this] at h
  cases h

/-- The inner-loop body preserves "pair-diagonal entries are zero". -/
lemma tbStep_diag_zero (g : ℕ → ℝ) (p q r s : ℕ) (st : GenState)
    (h : ∀ a b c d, a = b ∨ c = d → st.two_body a b c d = 0) :
    ∀ a b c d, a = b ∨ c = d → (tbStep g p q r s st).two_body a b c d = 0 := by
  intro a b c d habcd
  unfold tbStep
  split
  · rename_i hassign
    obtain ⟨hpq, hrs⟩ := tbAssign_ne p q r s hassign
    simp only [upd4]
    split_ifs <;> first | exact h a b c d habcd | omega
  · exact h a b c d habcd

/-- Pair-diagonal entries of the generated two-body tensor are zero. -/
lemma genLoop_two_body_diag (g : ℕ → ℝ) (n : ℕ) :
    ∀ a b c d, a = b ∨ c = d → (genLoop g n).two_body a b c d = 0 := by
  refine genLoop_inv g n
    (fun st => ∀ a b c d, a = b ∨ c = d → st.two_body a b c d = 0)
    (fun _ _ _ _ _ => rfl) (fun p q st h => ?_) (fun p q r s st h => ?_)
  · intro a b c d habcd; rw [obStep_two_body]; exact h a b c d habcd
  · exact tbStep_diag_zero g p q r s st h

/-- The one-body block preserves symmetry and parity-block structure of the
one-body matrix. -/
lemma obStep_parity (g : ℕ → ℝ) (p q : ℕ) (st : GenState)
    (h : ∀ a b, st.one_body a b = st.one_body b a ∧
      (a % 2 ≠ b % 2 → st.one_body a b = 0)) :
    ∀ a b, (obStep g p q st).one_body a b = (obStep g p q st).one_body b a ∧
      (a % 2 ≠ b % 2 → (obStep g p q st).one_body a b = 0) := by
  intro a b
  unfold obStep
  split
  · rename_i hcond
    obtain ⟨-, hpar⟩ := hcond
    simp only [upd2]
    constructor
    · split_ifs <;> first | rfl | tauto | exact (h a b).1
    · intro hab
      split_ifs <;> first | exact (h a b).2 hab | omega
  · exact h a b

/-- Symmetry and parity-block structure of the one-body matrix hold at the
end of the loops. -/
lemma genLoop_one_body_parity (g : ℕ → ℝ) (n : ℕ) :
    ∀ a b, (genLoop g n).one_body a b = (genLoop g n).one_body b a ∧
      (a % 2 ≠ b % 2 → (genLoop g n).one_body a b = 0) := by
  refine genLoop_inv g n
    (fun st => ∀ a b, st.one_body a b = st.one_body b a ∧
      (a % 2 ≠ b % 2 → st.one_body a b = 0))
    (fun _ _ => ⟨rfl, fun _ => rfl⟩) (fun p q st h => ?_) (fun p q r s st h => ?_)
  · exact obStep_parity g p q st h
  · intro a b; rw [tbStep_one_body]; exact h a b

/-! ## Claim theorems: generator invariants -/

/-- **C1.** For every mode count `n ≥ 0` and every ambient random source, the
two-body tensor of the generated InteractionOperator satisfies
`two_body[p,q,r,s] = two_body[s,r,q,p]` with exact equality for every index
quadruple. -/
theorem two_body_mirror_symmetry (g : ℕ → ℝ) (n p q r s : ℕ) :
    (artificial_molecular_operator g n).1.two_body_coefficients p q r s =
      (artificial_molecular_operator g n).1.two_body_coefficients s r q p :=
  genLoop_two_body_mirror g n p q r s

/-- **C4.** For every generated InteractionOperator: the one-body coefficient
at `(p, q)` is exactly zero whenever `p` and `q` have different parity, and
`one_body[p,q] = one_body[q,p]` whenever they have the same parity. -/
theorem one_body_parity_structure (g : ℕ → ℝ) (n p q : ℕ) :
    (p % 2 ≠ q % 2 →
      (artificial_molecular_operator g n).1.one_body_coefficients p q = 0) ∧
    (p % 2 = q % 2 →
      (artificial_molecular_operator g n).1.one_body_coefficients p q =
        (artificial_molecular_operator g n).1.one_body_coefficients q p) :=
  ⟨(genLoop_one_body_parity g n p q).2, fun _ => (genLoop_one_body_parity g n p q).1⟩

/-- Witness for the one-body parity structure at concrete inputs: modes
`(0, 1)` differ in parity, modes `(0, 2)` share it. -/
theorem one_body_parity_structure_witness :
    (artificial_molecular_operator (fun k => (k : ℝ)) 3).1.one_body_coefficients 0 1 = 0 ∧
    (artificial_molecular_operator (fun k => (k : ℝ)) 3).1.one_body_coefficients 0 2 =
      (artificial_molecular_operator (fun k => (k : ℝ)) 3).1.one_body_coefficients 2 0 :=
  ⟨(one_body_parity_structure (fun k => (k : ℝ)) 3 0 1).1 (by decide),
   (one_body_parity_structure (fun k => (k : ℝ)) 3 0 2).2 (by decide)⟩

/-- **C5.** For every generated InteractionOperator and every quadruple:
`two_body[p,q,r,s] = 0` whenever `p = q` or `r = s`. -/
theorem two_body_pair_diagonal_zero (g : ℕ → ℝ) (n p q r s : ℕ)
    (h : p = q ∨ r = s) :
    (artificial_molecular_operator g n).1.two_body_coefficients p q r s = 0 :=
  genLoop_two_body_diag g n p q r s h

/-- Witness for the pair-diagonal property at the concrete quadruple
`(0, 0, 0, 1)` with two modes. -/
theorem two_body_pair_diagonal_zero_witness :
    (artificial_molecular_operator (fun k => (k : ℝ)) 2).1.two_body_coefficients 0 0 0 1 = 0 :=
  two_body_pair_diagonal_zero (fun k => (k : ℝ)) 2 0 0 0 1 (Or.inl rfl)

/-- **C6.** Determinism: two generator invocations with the same mode count,
each started from the same random-source state (streams that agree at every
position), produce identical InteractionOperator values — the same constant,
one-body matrix and two-body tensor — and consume the same number of draws. -/
theorem generator_deterministic (g₁ g₂ : ℕ → ℝ) (n : ℕ)
    (h : ∀ k, g₁ k = g₂ k) :
    artificial_molecular_operator g₁ n = artificial_molecular_operator g₂ n := by
  rw [funext h]

/-- Witness for determinism: two invocations on the literal stream
`fun k => k` with two modes coincide. -/
theorem generator_deterministic_witness :
    artificial_molecular_operator (fun k => (k : ℝ)) 2 =
      artificial_molecular_operator (fun k => (k : ℝ)) 2 :=
  generator_deterministic (fun k => (k : ℝ)) (fun k => (k : ℝ)) 2 (fun _ => rfl)

/-- **C8.** Mode count zero is not an error: the loops never run, both
coefficient tables are identically zero, the constant is the single value
drawn from the source, and exactly one draw is consumed in total. -/
theorem generator_zero_modes (g : ℕ → ℝ) :
    (artificial_molecular_operator g 0).1.constant = g 0 ∧
    (∀ p q, (artificial_molecular_operator g 0).1.one_body_coefficients p q = 0) ∧
    (∀ p q r s, (artificial_molecular_operator g 0).1.two_body_coefficients p q r s = 0) ∧
    (artificial_molecular_operator g 0).2 = 1 :=
  ⟨rfl, fun _ _ => rfl, fun _ _ _ _ => rfl, rfl⟩

/-! ## Orbit selection of the two-body loop -/

/-- Mirroring the indices permutes the underlying index set. -/
lemma uniqueIndices_mirror (p q r s : ℕ) :
    uniqueIndices s r q p = uniqueIndices p q r s := by
  unfold uniqueIndices
  congr 1
  ext x
  simp only [Finset.mem_insert, Finset.mem_singleton]
  tauto

/-- A three-element insertion chain has at most three distinct values. -/
lemma card_triple_le (a b c : ℕ) : ({a, b, c} : Finset ℕ).card ≤ 3 := by
  have h1 := Finset.card_insert_le a ({b, c} : Finset ℕ)
  have h2 := Finset.card_insert_le b ({c} : Finset ℕ)
  have h3 : ({c} : Finset ℕ).card = 1 := Finset.card_singleton c
  omega

/-- At most four values occur among four indices. -/
lemma uniqueIndices_le_four (p q r s : ℕ) : uniqueIndices p q r s ≤ 4 := by
  unfold uniqueIndices
  have h1 := Finset.card_insert_le p ({q, r, s} : Finset ℕ)
  have h2 := card_triple_le q r s
  omega

/-- At least two values occur among four indices when `p ≠ q`. -/
lemma two_le_uniqueIndices (p q r s : ℕ) (hpq : p ≠ q) :
    2 ≤ uniqueIndices p q r s := by
  unfold uniqueIndices
  have hsub : ({p, q} : Finset ℕ) ⊆ {p, q, r, s} := by
    intro x hx
    simp only [Finset.mem_insert, Finset.mem_singleton] at hx ⊢
    tauto
  have := Finset.card_le_card hsub
  rw [Finset.card_pair hpq] at this
  exact this

/-- If two of the four indices coincide across the pairs, at most three
distinct values occur. -/
lemma uniqueIndices_le_three (p q r s : ℕ)
    (h : p = r ∨ p = s ∨ q = r ∨ q = s) : uniqueIndices p q r s ≤ 3 := by
  unfold uniqueIndices
  rcases h with h | h | h | h
  · refine le_trans (Finset.card_le_card ?_) (card_triple_le p q s)
    intro x hx
    simp only [Finset.mem_insert, Finset.mem_singleton] at hx ⊢
    subst h; tauto
  · refine le_trans (Finset.card_le_card ?_) (card_triple_le p q r)
    intro x hx
    simp only [Finset.mem_insert, Finset.mem_singleton] at hx ⊢
    subst h; tauto
  · refine le_trans (Finset.card_le_card ?_) (card_triple_le p q s)
    intro x hx
    simp only [Finset.mem_insert, Finset.mem_singleton] at hx ⊢
    subst h; tauto
  · refine le_trans (Finset.card_le_card ?_) (card_triple_le p q r)
    intro x hx
    simp only [Finset.mem_insert, Finset.mem_singleton] at hx ⊢
    subst h; tauto

/-- A self-mirrored quadruple `(p, q, q, p)` has at most two distinct values. -/
lemma uniqueIndices_self_mirror_le (p q : ℕ) : uniqueIndices p q q p ≤ 2 := by
  unfold uniqueIndices
  have hsub : ({p, q, q, p} : Finset ℕ) ⊆ {p, q} := by
    intro x hx
    simp only [Finset.mem_insert, Finset.mem_singleton] at hx ⊢
    tauto
  have h1 := Finset.card_le_card hsub
  have h2 := Finset.card_insert_le p ({q} : Finset ℕ)
  have h3 : ({q} : Finset ℕ).card = 1 := Finset.card_singleton q
  omega

/-- Four distinct indices force the two pair minima apart. -/
lemma min_ne_of_four (p q r s : ℕ) (h4 : uniqueIndices p q r s = 4) :
    min p q ≠ min r s := by
  intro heq
  have hle : uniqueIndices p q r s ≤ 3 := by
    apply uniqueIndices_le_three
    rcases min_choice p q with h1 | h1 <;> rcases min_choice r s with h2 | h2 <;>
      rw [h1, h2] at heq <;> tauto
  omega

/-- With `p ≠ q`, `r ≠ s` and only two distinct values, the quadruple is
either `(p, q, p, q)` or its self-mirrored variant `(p, q, q, p)`. -/
lemma two_distinct_pattern (p q r s : ℕ) (hpq : p ≠ q) (hrs : r ≠ s)
    (h2 : uniqueIndices p q r s = 2) :
    (r = p ∧ s = q) ∨ (r = q ∧ s = p) := by
  have hsub : ({p, q} : Finset ℕ) ⊆ {p, q, r, s} := by
    intro x hx
    simp only [Finset.mem_insert, Finset.mem_singleton] at hx ⊢
    tauto
  have hcard : ({p, q} : Finset ℕ).card = 2 := Finset.card_pair hpq
  have heq : ({p, q} : Finset ℕ) = {p, q, r, s} := by
    apply Finset.eq_of_subset_of_card_le hsub
    unfold uniqueIndices at h2
    omega
  have hr : r ∈ ({p, q} : Finset ℕ) := by
    rw [heq]
    simp only [Finset.mem_insert, Finset.mem_singleton]
    tauto
  have hs : s ∈ ({p, q} : Finset ℕ) := by
    rw [heq]
    simp only [Finset.mem_insert, Finset.mem_singleton]
    tauto
  simp only [Finset.mem_insert, Finset.mem_singleton] at hr hs
  omega

/-- Evaluation of `tbAssign` on a self-mirrored quadruple. -/
lemma tbAssign_of_self_mirror (p q r s : ℕ) (hpq : p ≠ q) (hrs : r ≠ s)
    (hm : (p, q, r, s) = (s, r, q, p)) : tbAssign p q r s = true := by
  unfold tbAssign
  rw [if_neg (by tauto), if_neg (not_not_intro hm)]

/-- Evaluation of `tbAssign` on a quadruple with four distinct values. -/
lemma tbAssign_of_four (p q r s : ℕ) (hpq : p ≠ q) (hrs : r ≠ s)
    (hm : (p, q, r, s) ≠ (s, r, q, p)) (h4 : uniqueIndices p q r s = 4) :
    tbAssign p q r s = if min r s ≤ min p q then false else true := by
  unfold tbAssign
  rw [if_neg (by tauto), if_pos hm, if_pos h4]

/-- Evaluation of `tbAssign` on a quadruple with two distinct values. -/
lemma tbAssign_of_two (p q r s : ℕ) (hpq : p ≠ q) (hrs : r ≠ s)
    (hm : (p, q, r, s) ≠ (s, r, q, p)) (h2 : uniqueIndices p q r s = 2) :
    tbAssign p q r s = if q < p then false else true := by
  unfold tbAssign
  rw [if_neg (by tauto), if_pos hm, if_neg (by omega), if_pos h2]

/-- Evaluation of `tbAssign` on a quadruple with three distinct values: the
`elif` chain falls through and the quadruple is assigned. -/
lemma tbAssign_of_three (p q r s : ℕ) (hpq : p ≠ q) (hrs : r ≠ s)
    (hm : (p, q, r, s) ≠ (s, r, q, p)) (h3 : uniqueIndices p q r s = 3) :
    tbAssign p q r s = true := by
  unfold tbAssign
  rw [if_neg (by tauto), if_pos hm, if_neg (by omega), if_neg (by omega)]

/-- **C2, counterexample.** The quadruple `(0, 1, 0, 2)` satisfies `p ≠ q`
and `r ≠ s`, has exactly three distinct index values, and is reached and
assigned by the loop — and so is its mirror `(2, 0, 1, 0)`, so the orbit
`{(0,1,0,2), (2,0,1,0)}` is assigned twice, contrary to the claim that no
reached quadruple has three distinct values and no orbit is drawn twice. -/
theorem three_distinct_quadruple_reached :
    tbAssign 0 1 0 2 = true ∧ tbAssign 2 0 1 0 = true ∧
      uniqueIndices 0 1 0 2 = 3 := by
  decide

/-- **C2, amended.** For quadruples with `p ≠ q` and `r ≠ s`: a self-mirrored
quadruple is always assigned; when the quadruple has two or four distinct
index values (and is not self-mirrored) exactly one member of the mirror
orbit `{(p,q,r,s), (s,r,q,p)}` is assigned; but quadruples with exactly three
distinct index values are reached by the loop and both members of their orbit
are assigned, so those orbits are drawn twice. -/
theorem tbAssign_orbit_selection (p q r s : ℕ) (hpq : p ≠ q) (hrs : r ≠ s) :
    ((p, q, r, s) = (s, r, q, p) → tbAssign p q r s = true) ∧
    (uniqueIndices p q r s ≠ 3 → (p, q, r, s) ≠ (s, r, q, p) →
      tbAssign s r q p = !tbAssign p q r s) ∧
    (uniqueIndices p q r s = 3 →
      tbAssign p q r s = true ∧ tbAssign s r q p = true) := by
  refine ⟨fun hm => tbAssign_of_self_mirror p q r s hpq hrs hm,
    fun hu3 hm => ?_, fun h3 => ?_⟩
  · have hmir : (s, r, q, p) ≠ (p, q, r, s) := fun h => hm h.symm
    have h2le := two_le_uniqueIndices p q r s hpq
    have h4le := uniqueIndices_le_four p q r s
    rcases (by omega : uniqueIndices p q r s = 2 ∨ uniqueIndices p q r s = 4)
      with h2 | h4
    · rcases two_distinct_pattern p q r s hpq hrs h2 with ⟨hrp, hsq⟩ | ⟨hrq, hsp⟩
      · rw [hrp, hsq] at h2 hm ⊢
        have h2m : uniqueIndices q p q p = 2 := by
          rw [uniqueIndices_mirror]; exact h2
        rw [tbAssign_of_two p q p q hpq hpq hm h2,
          tbAssign_of_two q p q p (Ne.symm hpq) (Ne.symm hpq)
            (fun hh => hm hh.symm) h2m]
        rcases lt_or_gt_of_ne hpq with h | h
        · rw [if_pos h, if_neg (by omega)]
          rfl
        · rw [if_neg (by omega), if_pos h]
          rfl
      · rw [hrq, hsp] at hm
        exact absurd rfl hm
    · have h4m : uniqueIndices s r q p = 4 := by
        rw [uniqueIndices_mirror]; exact h4
      rw [tbAssign_of_four p q r s hpq hrs hm h4,
        tbAssign_of_four s r q p (Ne.symm hrs) (Ne.symm hpq) hmir h4m,
        min_comm q p, min_comm s r]
      have hne := min_ne_of_four p q r s h4
      rcases lt_or_gt_of_ne hne with h | h
      · rw [if_pos (le_of_lt h), if_neg (not_le.mpr h)]
        rfl
      · rw [if_neg (not_le.mpr h), if_pos (le_of_lt h)]
        rfl
  · have hm : (p, q, r, s) ≠ (s, r, q, p) := by
      intro h
      simp only [Prod.mk.injEq] at h
      obtain ⟨h1, h2, -, -⟩ := h
      subst h1
      subst h2
      have := uniqueIndices_self_mirror_le p q
      omega
    have h3m : uniqueIndices s r q p = 3 := by
      rw [uniqueIndices_mirror]; exact h3
    exact ⟨tbAssign_of_three p q r s hpq hrs hm h3,
      tbAssign_of_three s r q p (Ne.symm hrs) (Ne.symm hpq)
        (fun h => hm h.symm) h3m⟩

/-- Witness for the amended orbit-selection theorem at the four-distinct
quadruple `(0, 1, 2, 3)`: exactly one of the two mirror partners is
assigned. -/
theorem tbAssign_orbit_selection_witness :
    tbAssign 3 2 1 0 = !tbAssign 0 1 2 3 :=
  (tbAssign_orbit_selection 0 1 2 3 (by decide) (by decide)).2.1
    (by decide) (by decide)

/-! ## Eight-fold symmetry -/

/-- **C3, counterexample.** With two modes and the concrete real random
stream `fun k => k`, the generated tensor violates the eight-fold symmetry of
real two-electron integrals: the generating permutation
`(p,q,r,s) ↦ (q,p,s,r)` maps `(0,1,1,0)` to `(1,0,0,1)`, yet the two tensor
entries are distinct random draws (the third and fourth values of the
stream). -/
theorem eightfold_symmetry_fails :
    (artificial_molecular_operator (fun k => (k : ℝ)) 2).1.two_body_coefficients 0 1 1 0 ≠
      (artificial_molecular_operator (fun k => (k : ℝ)) 2).1.two_body_coefficients 1 0 0 1 := by
  have h1 :
      (artificial_molecular_operator (fun k => (k : ℝ)) 2).1.two_body_coefficients 0 1 1 0 = 3 := by
    simp +decide [artificial_molecular_operator, genLoop, qStep, innerLoops, obStep,
      tbStep, upd2, upd4, List.range_succ]
  have h2 :
      (artificial_molecular_operator (fun k => (k : ℝ)) 2).1.two_body_coefficients 1 0 0 1 = 4 := by
    simp +decide [artificial_molecular_operator, genLoop, qStep, innerLoops, obStep,
      tbStep, upd2, upd4, List.range_succ]
  rw [h1, h2]
  norm_num

/-- **C3, amended.** The generated two-body tensor satisfies the two-fold
mirror symmetry generated by `(p,q,r,s) ↦ (s,r,q,p)` alone: the full
eight-fold symmetry group of real two-electron integrals is not enforced,
and (for three-distinct-index orbits) redundant random draws do occur. -/
theorem two_body_twofold_symmetry (g : ℕ → ℝ) (n p q r s : ℕ) :
    (artificial_molecular_operator g n).1.two_body_coefficients s r q p =
      (artificial_molecular_operator g n).1.two_body_coefficients p q r s :=
  (genLoop_two_body_mirror g n p q r s).symm

/-! ## Scenario B: random operator-string construction -/

/-- One candidate pair
`(numpy.random.randint(n_qubits), numpy.random.randint(2))` drawn at stream
position `k`, together with the next stream position; two raw draws are
consumed, and `randint(m)` at position `j` is modelled as `h j % m`. -/
def randPair (h : ℕ → ℕ) (n k : ℕ) : (ℕ × ℕ) × ℕ :=
  ((h k % n, h (k + 1) % 2), k + 2)

/-- The `while operator == operators[-1]:` redraw loop of Scenario B: a
candidate is drawn and redrawn while it equals the previous last element.
The source loop is unbounded; here `fuel` bounds the number of candidates
drawn, and `none` marks fuel exhaustion before a non-colliding pair
appeared. -/
def redrawLoop (h : ℕ → ℕ) (n : ℕ) (prev : ℕ × ℕ) :
    ℕ → ℕ → Option ((ℕ × ℕ) × ℕ)
  | 0, _ => none
  | fuel + 1, k =>
    if (randPair h n k).1 = prev then redrawLoop h n prev fuel (randPair h n k).2
    else some (randPair h n k)

/-- One iteration of the `for operator_number in range(term_length)` loop:
append a non-colliding pair to `operators_a`, then one to `operators_b`,
threading the stream position through. -/
def termStep (h : ℕ → ℕ) (n fuel : ℕ)
    (st : List (ℕ × ℕ) × List (ℕ × ℕ) × ℕ) :
    Option (List (ℕ × ℕ) × List (ℕ × ℕ) × ℕ) :=
  (redrawLoop h n (st.1.getLastD (0, 0)) fuel st.2.2).bind fun rA =>
    (redrawLoop h n (st.2.1.getLastD (0, 0)) fuel rA.2).bind fun rB =>
      some (st.1 ++ [rA.1], st.2.1 ++ [rB.1], rB.2)

/-- The initial state of Scenario B: `operators_a` and `operators_b` each
hold one unconditionally drawn pair, and four raw draws have been consumed. -/
def scenarioB_init (h : ℕ → ℕ) (n : ℕ) : List (ℕ × ℕ) × List (ℕ × ℕ) × ℕ :=
  ([(randPair h n 0).1],
   [(randPair h n (randPair h n 0).2).1],
   (randPair h n (randPair h n 0).2).2)

/-- The operator-string construction of
`benchmark_fermion_math_and_normal_order` (Scenario B): after the initial
unconditional draws, `term_length` loop iterations each append one
non-colliding pair to both sequences.  Returns both sequences and the final
stream position, or `none` when a redraw loop exhausts its fuel. -/
def scenarioB_operators (h : ℕ → ℕ) (n term_length fuel : ℕ) :
    Option (List (ℕ × ℕ) × List (ℕ × ℕ) × ℕ) :=
  (List.range term_length).foldl (fun acc _ => acc.bind (termStep h n fuel))
    (some (scenarioB_init h n))

/-- A pair returned by the redraw loop differs from the previous element. -/
lemma redrawLoop_ne (h : ℕ → ℕ) (n : ℕ) (prev : ℕ × ℕ) :
    ∀ fuel k op k1, redrawLoop h n prev fuel k = some (op, k1) → op ≠ prev := by
  intro fuel
  induction fuel with
  | zero => intro k op k1 hsome; cases hsome
  | succ m ih =>
    intro k op k1 hsome
    unfold redrawLoop at hsome
    split at hsome
    · exact ih _ _ _ hsome
    · rename_i hne
      have heq := Option.some.inj hsome
      rw [heq] at hne
      exact hne

/-- Appending an element distinct from the last preserves the
no-consecutive-repeats property. -/
lemma chain'_snoc_ne (l : List (ℕ × ℕ)) (x : ℕ × ℕ) (hl : l ≠ [])
    (hc : l.Chain' (fun u v => u ≠ v)) (hx : x ≠ l.getLastD (0, 0)) :
    (l ++ [x]).Chain' (fun u v => u ≠ v) := by
  have hlast : l.getLastD (0, 0) = l.getLast hl := by
    rw [List.getLastD_eq_getLast?, List.getLast?_eq_getLast_of_ne_nil hl]
    rfl
  rw [List.chain'_append]
  refine ⟨hc, List.chain'_singleton x, fun u hu v hv => ?_⟩
  rw [List.getLast?_eq_getLast_of_ne_nil hl] at hu
  simp only [Option.mem_def, Option.some.injEq, List.head?_cons] at hu hv
  rw [← hu, ← hv]
  rw [hlast] at hx
  exact fun hcontra => hx hcontra.symm

/-- One loop iteration preserves nonemptiness and the no-consecutive-repeats
property of both sequences, and grows each by exactly one element. -/
lemma termStep_inv (h : ℕ → ℕ) (n fuel : ℕ)
    (st out : List (ℕ × ℕ) × List (ℕ × ℕ) × ℕ)
    (hstep : termStep h n fuel st = some out)
    (ha : st.1 ≠ []) (hb : st.2.1 ≠ [])
    (hca : st.1.Chain' (fun u v => u ≠ v))
    (hcb : st.2.1.Chain' (fun u v => u ≠ v)) :
    out.1 ≠ [] ∧ out.2.1 ≠ [] ∧
      out.1.Chain' (fun u v => u ≠ v) ∧ out.2.1.Chain' (fun u v => u ≠ v) ∧
      out.1.length = st.1.length + 1 ∧ out.2.1.length = st.2.1.length + 1 := by
  unfold termStep at hstep
  rcases hA : redrawLoop h n (st.1.getLastD (0, 0)) fuel st.2.2 with _ | ⟨opA, k1⟩
  · rw [hA, Option.none_bind] at hstep; cases hstep
  · rw [hA, Option.some_bind] at hstep
    rcases hB : redrawLoop h n (st.2.1.getLastD (0, 0)) fuel (opA, k1).2
      with _ | ⟨opB, k2⟩
    · rw [hB, Option.none_bind] at hstep; cases hstep
    · rw [hB, Option.some_bind] at hstep
      have hout := Option.some.inj hstep
      rw [← hout]
      have hneA := redrawLoop_ne h n _ fuel st.2.2 opA k1 hA
      have hneB := redrawLoop_ne h n _ fuel (opA, k1).2 opB k2 hB
      refine ⟨by simp, by simp, ?_, ?_, by simp, by simp⟩
      · exact chain'_snoc_ne st.1 opA ha hca hneA
      · exact chain'_snoc_ne st.2.1 opB hb hcb hneB

/-- Combined invariant of the Scenario B construction: when it completes,
both sequences are nonempty, contain no two consecutive identical pairs, and
have exactly `term_length + 1` elements. -/
lemma scenarioB_invariant (h : ℕ → ℕ) (n fuel : ℕ) :
    ∀ L a b k, scenarioB_operators h n L fuel = some (a, b, k) →
      a ≠ [] ∧ b ≠ [] ∧
        a.Chain' (fun u v => u ≠ v) ∧ b.Chain' (fun u v => u ≠ v) ∧
        a.length = L + 1 ∧ b.length = L + 1 := by
  intro L
  induction L with
  | zero =>
    intro a b k hsome
    unfold scenarioB_operators scenarioB_init at hsome
    simp only [List.range_zero, List.foldl_nil, Option.some.injEq,
      Prod.mk.injEq] at hsome
    obtain ⟨ha, hb, -⟩ := hsome
    subst ha
    subst hb
    exact ⟨by simp, by simp, List.chain'_singleton _, List.chain'_singleton _,
      by simp, by simp⟩
  | succ m ih =>
    intro a b k hsome
    unfold scenarioB_operators at hsome
    rw [List.range_succ, List.foldl_append, List.foldl_cons, List.foldl_nil] at hsome
    rcases hprev : (List.range m).foldl (fun acc _ => acc.bind (termStep h n fuel))
        (some (scenarioB_init h n)) with _ | st
    · rw [hprev] at hsome; cases hsome
    · rw [hprev] at hsome
      simp only [Option.some_bind] at hsome
      obtain ⟨a0, b0, k0⟩ := st
      obtain ⟨ha0, hb0, hca0, hcb0, hla0, hlb0⟩ := ih a0 b0 k0 (by
        unfold scenarioB_operators; exact hprev)
      have := termStep_inv h n fuel (a0, b0, k0) (a, b, k) hsome ha0 hb0 hca0 hcb0
      obtain ⟨h1, h2, h3, h4, h5, h6⟩ := this
      have h5a : a.length = a0.length + 1 := h5
      have h6b : b.length = b0.length + 1 := h6
      exact ⟨h1, h2, h3, h4, by omega, by omega⟩

/-- **C7.** For every mode count, term length and fuel bound, whenever the
Scenario B construction completes, neither generated operator-term sequence
contains two consecutive identical (mode, raise/lower flag) pairs. -/
theorem scenarioB_no_consecutive_repeats (h : ℕ → ℕ) (n L fuel : ℕ)
    (a b : List (ℕ × ℕ)) (k : ℕ)
    (hrun : scenarioB_operators h n L fuel = some (a, b, k)) :
    a.Chain' (fun u v => u ≠ v) ∧ b.Chain' (fun u v => u ≠ v) :=
  ⟨(scenarioB_invariant h n fuel L a b k hrun).2.2.1,
   (scenarioB_invariant h n fuel L a b k hrun).2.2.2.1⟩

/-- Witness for C7: a complete concrete Scenario B run with two modes and
term length two, whose two output sequences have no consecutive repeats. -/
theorem scenarioB_no_consecutive_repeats_witness :
    ([((0:ℕ), (1:ℕ)), (1, 0), (0, 0)] : List (ℕ × ℕ)).Chain' (fun u v => u ≠ v) ∧
    ([((0:ℕ), (0:ℕ)), (0, 1), (1, 0)] : List (ℕ × ℕ)).Chain' (fun u v => u ≠ v) :=
  scenarioB_no_consecutive_repeats (fun i => i % 3) 2 2 2
    [(0, 1), (1, 0), (0, 0)] [(0, 0), (0, 1), (1, 0)] 12 (by decide)

/-- **C10.** Whenever the Scenario B construction completes, each of the two
operator-term sequences holds exactly `term_length + 1` pairs: one drawn
unconditionally before the loop plus one per loop iteration. -/
theorem scenarioB_term_lengths (h : ℕ → ℕ) (n L fuel : ℕ)
    (a b : List (ℕ × ℕ)) (k : ℕ)
    (hrun : scenarioB_operators h n L fuel = some (a, b, k)) :
    a.length = L + 1 ∧ b.length = L + 1 :=
  ⟨(scenarioB_invariant h n fuel L a b k hrun).2.2.2.2.1,
   (scenarioB_invariant h n fuel L a b k hrun).2.2.2.2.2⟩

/-- Witness for C10: a concrete run with term length one yields sequences of
two pairs each. -/
theorem scenarioB_term_lengths_witness :
    ([((0:ℕ), (1:ℕ)), (1, 0)] : List (ℕ × ℕ)).length = 1 + 1 ∧
    ([((0:ℕ), (0:ℕ)), (0, 1)] : List (ℕ × ℕ)).length = 1 + 1 :=
  scenarioB_term_lengths (fun i => i % 3) 2 1 2
    [(0, 1), (1, 0)] [(0, 0), (0, 1)] 8 (by decide)

/-- The `i`-th candidate examined by a redraw loop started at stream
position `k`: each rejected candidate advances the position by two raw
draws. -/
def candidateAt (h : ℕ → ℕ) (n k i : ℕ) : ℕ × ℕ :=
  (randPair h n (k + 2 * i)).1

/-- If the `i`-th candidate differs from the previous pair, fuel `i + 1`
makes the redraw loop return. -/
lemma redrawLoop_some_of_candidate (h : ℕ → ℕ) (n : ℕ) (prev : ℕ × ℕ) :
    ∀ i k, candidateAt h n k i ≠ prev →
      ∃ res, redrawLoop h n prev (i + 1) k = some res := by
  intro i
  induction i with
  | zero =>
    intro k hc
    have hc0 : (randPair h n k).1 ≠ prev := by
      simpa [candidateAt] using hc
    exact ⟨randPair h n k, by unfold redrawLoop; rw [if_neg hc0]⟩
  | succ m ih =>
    intro k hc
    by_cases h0 : (randPair h n k).1 = prev
    · have hc2 : candidateAt h n (k + 2) m ≠ prev := by
        have harith : k + 2 + 2 * m = k + 2 * (m + 1) := by omega
        simpa [candidateAt, harith] using hc
      obtain ⟨res, hres⟩ := ih (k + 2) hc2
      exact ⟨res, by unfold redrawLoop; rw [if_pos h0]; exact hres⟩
    · exact ⟨randPair h n k, by unfold redrawLoop; rw [if_neg h0]⟩

/-- **C9.** Each redraw-on-collision loop of Scenario B terminates whenever
the stream of candidate draws eventually yields a pair different from the
previous one: some finite fuel makes it return a well-defined next term
element. -/
theorem redraw_loop_terminates (h : ℕ → ℕ) (n k : ℕ) (prev : ℕ × ℕ)
    (hev : ∃ i, candidateAt h n k i ≠ prev) :
    ∃ fuel res, redrawLoop h n prev fuel k = some res := by
  obtain ⟨i, hi⟩ := hev
  obtain ⟨res, hres⟩ := redrawLoop_some_of_candidate h n prev i k hi
  exact ⟨i + 1, res, hres⟩

/-- Witness for C9: with two modes and the identity stream starting at
position 0, the very first candidate differs from `(0, 0)`, so the loop
terminates. -/
theorem redraw_loop_terminates_witness :
    ∃ fuel res, redrawLoop (fun i => i) 2 (0, 0) fuel 0 = some res :=
  redraw_loop_terminates (fun i => i) 2 0 (0, 0) ⟨0, by decide⟩
